import Mathlib

/-!
Verification of the dApp-staking reimbursement script (src/index.ts).

The script is a three-phase pipeline:
1. Era Scanner: walks the live chain from START_BLOCK, discovering era
   boundaries and recording the on-chain (buggy) reward distribution
   per era (the do-while loop).
2. Replay Reconciler: for each discovered (era, block), replays the
   era-bump transition on an isolated chopsticks fork under the fixed
   runtime, carrying the tierConfig value forward between iterations.
3. Delta Aggregator: joins expected vs actual reward sets per
   (era, dapp), computes deltas, and builds the reimbursement ledger.

All chain and fork I/O is modelled by oracles (pure functions giving the
values the external collaborators would return); JavaScript Maps are
modelled as insertion-ordered association lists with overwrite-on-set,
matching Map.set and Map.get; JS bigint is modelled by Nat for rewards
(hexToBigInt yields non-negative values) and Int for deltas; thrown
exceptions are modelled with Except. JS truthiness tests on strings
(value || fallback, if (tierConfig)) are modelled faithfully, including
the empty-string-is-falsy case.
-/

namespace Reimb

/-- One recipient reward entry, from `type Reward` in the source:
reward is the u128 amount, tierId the assigned tier, beneficiary the
payout address. -/
structure Reward where
  reward : Nat
  tierId : Nat
  beneficiary : String
deriving DecidableEq, Repr

/-- JS Map.get: first entry with the given key, if any. -/
def mapGet {α β : Type} [DecidableEq α] : List (α × β) → α → Option β
  | [], _ => none
  | (k, v) :: rest, a => if k = a then some v else mapGet rest a

/-- JS Map.set: overwrite the value at an existing key in place,
otherwise append at the end (insertion order preserved). -/
def mapSet {α β : Type} [DecidableEq α] : List (α × β) → α → β → List (α × β)
  | [], a, b => [(a, b)]
  | (k, v) :: rest, a, b => if k = a then (a, b) :: rest else (k, v) :: mapSet rest a b

theorem mapGet_mapSet {α β : Type} [DecidableEq α] (m : List (α × β)) (k a : α) (b : β) :
    mapGet (mapSet m a b) k = if k = a then some b else mapGet m k := by
  induction m with
  | nil =>
    by_cases h : k = a
    · simp [mapGet, mapSet, h]
    · simp [mapGet, mapSet, h, Ne.symm h]
  | cons p rest ih =>
    obtain ⟨k', v'⟩ := p
    by_cases h1 : k' = a
    · subst h1
      by_cases h2 : k = k'
      · simp [mapGet, mapSet, h2]
      · simp [mapGet, mapSet, h2, Ne.symm h2]
    · by_cases h2 : k = k'
      · subst h2
        simp [mapGet, mapSet, h1]
      · simp [mapGet, mapSet, h1, h2, Ne.symm h2, ih]

theorem mapGet_some_key_mem {α β : Type} [DecidableEq α] (m : List (α × β)) (k : α) (v : β)
    (h : mapGet m k = some v) : k ∈ m.map Prod.fst := by
  induction m with
  | nil => simp [mapGet] at h
  | cons p rest ih =>
    obtain ⟨k', v'⟩ := p
    by_cases hk : k' = k
    · simp [hk]
    · simp [mapGet, hk] at h
      simpa using Or.inr (ih h)

/-- One output record of the merge loop in src/index.ts: the object
pushed onto finalResults. -/
structure Row where
  era : Nat
  dapp_id : Nat
  beneficiary : String
  expected_tier : Nat
  actual_tier : Nat
  expected_reward : Nat
  actual_reward : Nat
  delta : Int
deriving DecidableEq, Repr

/-- The two failure modes of the merge loop: the TypeError raised by
reading a property of undefined after a failed Map.get (the source
uses non-null assertions), and the explicit
throw new Error with message about a negative amount delta. -/
inductive MergeError where
  | lookupFailed (era dapp : Nat)
  | negativeDelta (era dapp : Nat)
deriving DecidableEq, Repr

/-- Inner merge loop of src/index.ts lines 155-171: for each
(dapp_id, expected) of one era of expectedTiers, look up the actual
record (a failed lookup throws), compute delta, throw if negative,
and push a row. -/
def mergeEra (actual : List (Nat × List (Nat × Reward))) (era : Nat) :
    List (Nat × Reward) → Except MergeError (List Row)
  | [] => .ok []
  | (did, exp) :: rest =>
    match (mapGet actual era).bind (fun aset => mapGet aset did) with
    | none => .error (.lookupFailed era did)
    | some act =>
      let delta : Int := (exp.reward : Int) - (act.reward : Int)
      if delta < 0 then .error (.negativeDelta era did)
      else
        match mergeEra actual era rest with
        | .error e => .error e
        | .ok rows =>
          .ok ({ era := era, dapp_id := did, beneficiary := exp.beneficiary,
                 expected_tier := exp.tierId, actual_tier := act.tierId,
                 expected_reward := exp.reward, actual_reward := act.reward,
                 delta := delta } :: rows)

/-- Outer merge loop of src/index.ts lines 154-172: iterate over the
eras of expectedTiers, concatenating the rows of each era in order. -/
def mergeAll (actual : List (Nat × List (Nat × Reward))) :
    List (Nat × List (Nat × Reward)) → Except MergeError (List Row)
  | [] => .ok []
  | (era, eset) :: rest =>
    match mergeEra actual era eset with
    | .error e => .error e
    | .ok rows =>
      match mergeAll actual rest with
      | .error e => .error e
      | .ok rows2 => .ok (rows ++ rows2)

/-- The four artifacts written by main after a successful merge. -/
def artifactFiles : List String :=
  ["raw-result.json", "raw-result.csv", "reimburse.json", "reimburse.csv"]

/-- Output behaviour of main around the merge: all four Bun.write calls
come strictly after the merge loop, so a merge failure leaves no
artifact written. -/
def mainOutputs (actual expected : List (Nat × List (Nat × Reward))) : List String :=
  match mergeAll actual expected with
  | .error _ => []
  | .ok _ => artifactFiles

/-- JS object accumulator update used by reduce in src/index.ts lines
214-218: acc[beneficiary] = (acc[beneficiary] || 0n) + delta; an
existing key keeps its position, a new key is appended. -/
def insertAdd : List (String × Int) → String → Int → List (String × Int)
  | [], b, d => [(b, d)]
  | (k, v) :: rest, b, d =>
    if k = b then (k, v + d) :: rest else (k, v) :: insertAdd rest b d

/-- The reimbursement ledger of src/index.ts lines 212-218: filter out
zero-delta rows, then sum deltas per beneficiary. -/
def reimburse (rows : List Row) : List (String × Int) :=
  (rows.filter (fun r => decide (r.delta ≠ 0))).foldl
    (fun acc r => insertAdd acc r.beneficiary r.delta) []

def c1exp : Reward := { reward := 5, tierId := 0, beneficiary := "alice" }

def c1act : Reward := { reward := 9, tierId := 1, beneficiary := "alice" }

def c3rowA : Row :=
  { era := 1, dapp_id := 5, beneficiary := "A", expected_tier := 0, actual_tier := 0,
    expected_reward := 150, actual_reward := 100, delta := 50 }

def c3rowB : Row :=
  { era := 1, dapp_id := 6, beneficiary := "B", expected_tier := 1, actual_tier := 1,
    expected_reward := 200, actual_reward := 200, delta := 0 }

def c3rowA2 : Row :=
  { era := 3, dapp_id := 5, beneficiary := "A", expected_tier := 0, actual_tier := 1,
    expected_reward := 40, actual_reward := 10, delta := 30 }

def c10actual : List (Nat × List (Nat × Reward)) :=
  [(1, [(2, { reward := 100, tierId := 1, beneficiary := "A" })])]

def c10expected : List (Nat × List (Nat × Reward)) :=
  [(1, [(2, { reward := 150, tierId := 0, beneficiary := "A" })])]

def c10rows : List Row :=
  [{ era := 1, dapp_id := 2, beneficiary := "A", expected_tier := 0, actual_tier := 1,
     expected_reward := 150, actual_reward := 100, delta := 50 }]

def c2onlyActual : Reward := { reward := 100, tierId := 1, beneficiary := "C" }

def c2exp : Reward := { reward := 7, tierId := 0, beneficiary := "D" }

/-- Sum of the deltas of all rows with the given beneficiary. -/
def sumDeltas (b : String) : List Row → Int
  | [] => 0
  | r :: rest => (if r.beneficiary = b then r.delta else 0) + sumDeltas b rest

/-- Total reimbursement as computed at src/index.ts line 233: reduce of
all ledger amounts from 0n (before the display division). -/
def totalReimburse (rows : List Row) : Int :=
  ((reimburse rows).map Prod.snd).foldl (fun a x => a + x) 0

/-- One decoded runtime event as inspected by ensureHasEvent; the JS
code reads event.event.section and event.event.method, flattened here
into two string fields (the first renamed because of a Lean keyword). -/
structure Event where
  sectionName : String
  method : String
deriving DecidableEq, Repr

/-- ensureHasEvent from src/index.ts lines 25-35: scan the event list
in order, return on the first dappStaking NewEra event, otherwise
throw the fixed error. -/
def ensureHasEvent : List Event → Except String Unit
  | [] => .error "Missing dappStaking::NewEra event"
  | e :: rest =>
    if e.sectionName = "dappStaking" ∧ e.method = "NewEra" then .ok ()
    else ensureHasEvent rest

/-- One entry of the integratedDApps directory as toJSON yields it:
numeric id, owner address, optional rewardBeneficiary (null maps to
none). -/
structure DApp where
  id : Nat
  owner : String
  rewardBeneficiary : Option String
deriving DecidableEq, Repr

/-- The dAppTiers storage value for one era: dapps maps dappId to
tierId in Object.entries order, rewards is the per-tier reward list.
Hex amounts are modelled as the decoded Nat; hexToBigInt of a missing
index yields 0, modelled by getD 0. -/
structure DAppTiersInfo where
  dapps : List (Nat × Nat)
  rewards : List Nat
deriving DecidableEq, Repr

/-- dapp.rewardBeneficiary || dapp.owner with JS falsiness: null,
undefined and the empty string all fall back to the owner address. -/
def beneficiaryOf (d : DApp) : String :=
  match d.rewardBeneficiary with
  | some s => if s = "" then d.owner else s
  | none => d.owner

/-- The reward-extraction loop shared verbatim by the scan
(src/index.ts lines 59-79) and the replay (lines 126-146): for each
(dappId, tierId) entry, decode the reward of that tier, find the dapp
in the directory (fatal if absent), and record reward, tierId and the
resolved beneficiary under the dappId key. -/
def extractGo (info : DAppTiersInfo) (dir : List DApp) :
    List (Nat × Nat) → List (Nat × Reward) → Except String (List (Nat × Reward))
  | [], acc => .ok acc
  | (dappId, tierId) :: rest, acc =>
    match dir.find? (fun x => x.id == dappId) with
    | none => .error "dapp should exists"
    | some dapp =>
      extractGo info dir rest
        (mapSet acc dappId
          { reward := info.rewards.getD tierId 0, tierId := tierId,
            beneficiary := beneficiaryOf dapp })

/-- Reward extraction for one era: run extractGo over the dapps table
starting from the empty dappsReward map. -/
def extractRewards (info : DAppTiersInfo) (dir : List DApp) :
    Except String (List (Nat × Reward)) :=
  extractGo info dir info.dapps []

/-- activeProtocolState as read by the scanner: era and nextEraStart. -/
structure ProtocolState where
  era : Nat
  nextEraStart : Nat
deriving DecidableEq, Repr

/-- Oracle for the live chain: what each query returns at a given
block number (api.at of the block hash at that number). -/
structure ChainView where
  protocolState : Nat → ProtocolState
  events : Nat → List Event
  dAppTiers : Nat → Nat → DAppTiersInfo
  integratedDApps : Nat → List DApp

/-- Accumulators of the scanner: the era to block-number map and the
era to actual reward-set map. -/
structure ScanAcc where
  blocks : List (Nat × Nat)
  actualTiers : List (Nat × List (Nat × Reward))
deriving DecidableEq, Repr

/-- Failure modes of one scanner iteration, plus an out-of-fuel marker
used to model the unbounded do-while loop by fuel exhaustion (the
source has no loop bound: outOfFuel means the loop is still running
after the given number of iterations). -/
inductive ScanError where
  | missingEvent
  | missingDApp
  | outOfFuel
deriving DecidableEq, Repr

/-- The scanner do-while loop of src/index.ts lines 46-82, with fuel:
record the era boundary, anchor at the boundary block, check the
NewEra event, extract the actual rewards, refresh the protocol state,
and loop while its nextEraStart is below endBlock. -/
def scanGo (chain : ChainView) (endBlock : Nat) :
    Nat → ProtocolState → ScanAcc → Except ScanError ScanAcc
  | 0, _, _ => .error .outOfFuel
  | fuel + 1, ps, acc =>
    let blockNo := ps.nextEraStart
    let era := ps.era
    let acc1 : ScanAcc := { acc with blocks := mapSet acc.blocks era blockNo }
    match ensureHasEvent (chain.events blockNo) with
    | .error _ => .error .missingEvent
    | .ok _ =>
      match extractRewards (chain.dAppTiers blockNo era) (chain.integratedDApps blockNo) with
      | .error _ => .error .missingDApp
      | .ok rws =>
        let acc2 : ScanAcc := { acc1 with actualTiers := mapSet acc1.actualTiers era rws }
        let ps2 := chain.protocolState blockNo
        if ps2.nextEraStart < endBlock then scanGo chain endBlock fuel ps2 acc2
        else .ok acc2

/-- Oracle for one chopsticks fork: what the fork answers after its one
produced block (events, tierConfig hex blob, dAppTiers, directory). -/
structure Fork where
  events : List Event
  tierConfigHex : String
  dAppTiers : Nat → DAppTiersInfo
  integratedDApps : List DApp

/-- Observable actions of one replay iteration, in order: acquire the
fork at a block (setupContext), substitute the runtime (setWasm),
optionally override tierConfig storage, produce one block, read the
tierConfig back, settle (setTimeout) and tear the fork down. -/
inductive ReplayEvent where
  | acquire (block : Nat)
  | setWasm
  | overrideCfg (cfg : String)
  | produceBlock
  | readConfig (cfg : String)
  | settle (ms : Nat)
  | teardown
deriving DecidableEq, Repr

/-- Failure modes of one replay iteration. -/
inductive ReplayError where
  | missingEvent
  | missingDApp
deriving DecidableEq, Repr

/-- The common prefix of one replay iteration of src/index.ts lines
99-150: acquire the fork one block before the era bump, set the fixed
runtime, and apply the carried tierConfig override only when the JS
string is truthy (defined and non-empty), then produce the block. -/
def stepPre (tc : Option String) (block : Nat) : List ReplayEvent :=
  [.acquire (block - 1), .setWasm] ++
    (match tc with
     | some c => if c = "" then [] else [.overrideCfg c]
     | none => []) ++
    [.produceBlock]

/-- One replay iteration: returns its action trace together with
either a failure or the tierConfig read back plus the expected reward
set of the era. The teardown action happens only after every earlier
step has succeeded, exactly as in the source, where ctx.teardown() is
the last statement of the loop body and is not in a finally block. -/
def replayStep (backend : Nat → Fork) (tc : Option String) (era block : Nat) :
    List ReplayEvent × Except ReplayError (String × List (Nat × Reward)) :=
  let fork := backend (block - 1)
  match ensureHasEvent fork.events with
  | .error _ => (stepPre tc block, .error .missingEvent)
  | .ok _ =>
    match extractRewards (fork.dAppTiers era) fork.integratedDApps with
    | .error _ => (stepPre tc block ++ [.readConfig fork.tierConfigHex], .error .missingDApp)
    | .ok rws =>
      (stepPre tc block ++ [.readConfig fork.tierConfigHex, .settle 1000, .teardown],
        .ok (fork.tierConfigHex, rws))

/-- The replay loop of src/index.ts lines 95-150 over the discovered
(era, block) pairs, threading the carried tierConfig and accumulating
expectedTiers; the full action trace is returned alongside, and a
failing iteration aborts the loop with its partial trace. -/
def replayLoop (backend : Nat → Fork) :
    List (Nat × Nat) → Option String → List (Nat × List (Nat × Reward)) →
      List ReplayEvent × Except ReplayError (List (Nat × List (Nat × Reward)))
  | [], _, acc => ([], .ok acc)
  | (era, block) :: rest, tc, acc =>
    match replayStep backend tc era block with
    | (tr, .error e) => (tr, .error e)
    | (tr, .ok (cfg, rws)) =>
      let next := replayLoop backend rest (some cfg) (mapSet acc era rws)
      (tr ++ next.1, next.2)

/-- Override values occurring in a replay trace, in order. -/
def overrideVals (tr : List ReplayEvent) : List String :=
  tr.filterMap (fun e => match e with | .overrideCfg c => some c | _ => none)

/-- tierConfig read-back values occurring in a replay trace, in order. -/
def readbackVals (tr : List ReplayEvent) : List String :=
  tr.filterMap (fun e => match e with | .readConfig c => some c | _ => none)

/-- Is the action a fork acquisition. -/
def isAcquire : ReplayEvent → Bool
  | .acquire _ => true
  | _ => false

/-- Is the action a fork teardown. -/
def isTeardown : ReplayEvent → Bool
  | .teardown => true
  | _ => false

/-- Checks that fork acquisitions and teardowns alternate strictly,
starting and ending with no fork open: an acquisition is legal only
with no fork open, a teardown only with exactly one. -/
def okNesting : Nat → List ReplayEvent → Bool
  | _, [] => true
  | c, .acquire _ :: rest => (c == 0) && okNesting (c + 1) rest
  | c, .teardown :: rest => (c == 1) && okNesting (c - 1) rest
  | c, _ :: rest => okNesting c rest

def c8dir : List DApp :=
  [{ id := 1, owner := "ownerAddr", rewardBeneficiary := some "beneAddr" },
   { id := 2, owner := "ownerAddr2", rewardBeneficiary := none }]

def c8info : DAppTiersInfo := { dapps := [(1, 0), (2, 1)], rewards := [7, 3] }

/-- The extraction result on c8info and c8dir, used by the witness. -/
def c8res : List (Nat × Reward) :=
  [(1, { reward := 7, tierId := 0, beneficiary := "beneAddr" }),
   (2, { reward := 3, tierId := 1, beneficiary := "ownerAddr2" })]

/-- A healthy chain whose initial nextEraStart 500 is already beyond
the end block used by the C9 witness. -/
def c9chain : ChainView :=
  { protocolState := fun _ => { era := 7, nextEraStart := 500 },
    events := fun _ => [{ sectionName := "dappStaking", method := "NewEra" }],
    dAppTiers := fun _ _ => { dapps := [], rewards := [] },
    integratedDApps := fun _ => [] }

/-- A chain whose protocol state reports the same nextEraStart 100 at
every block: the era boundary never advances. -/
def c5chain : ChainView :=
  { protocolState := fun _ => { era := 1, nextEraStart := 100 },
    events := fun _ => [{ sectionName := "dappStaking", method := "NewEra" }],
    dAppTiers := fun _ _ => { dapps := [], rewards := [] },
    integratedDApps := fun _ => [] }

/-- A fork backend whose produced block emits no era-advance event. -/
def c6backend : Nat → Fork := fun _ =>
  { events := [],
    tierConfigHex := "0xaa",
    dAppTiers := fun _ => { dapps := [], rewards := [] },
    integratedDApps := [] }

/-- A healthy fork backend used by the replay witnesses. -/
def c4backend : Nat → Fork := fun _ =>
  { events := [{ sectionName := "dappStaking", method := "NewEra" }],
    tierConfigHex := "0xaa",
    dAppTiers := fun _ => { dapps := [], rewards := [] },
    integratedDApps := [] }

/-- The replay trace of c4backend on eras 1 and 2 at blocks 10 and 20. -/
def c4trace : List ReplayEvent :=
  [.acquire 9, .setWasm, .produceBlock, .readConfig "0xaa", .settle 1000, .teardown,
   .acquire 19, .setWasm, .overrideCfg "0xaa", .produceBlock, .readConfig "0xaa",
   .settle 1000, .teardown]

theorem mergeEra_ok_bound (actual : List (Nat × List (Nat × Reward))) (era : Nat)
    (eset : List (Nat × Reward)) (rows : List Row) (did : Nat) (exp : Reward)
    (hok : mergeEra actual era eset = .ok rows)
    (hexp : mapGet eset did = some exp) :
    ∃ aset act, mapGet actual era = some aset ∧ mapGet aset did = some act ∧
      (act.reward : Int) ≤ (exp.reward : Int) := by
  induction eset generalizing rows with
  | nil => simp [mapGet] at hexp
  | cons p rest ih =>
    obtain ⟨d0, e0⟩ := p
    cases ha : (mapGet actual era).bind (fun aset => mapGet aset d0) with
    | none => simp [mergeEra, ha] at hok
    | some act0 =>
      by_cases hd : ((e0.reward : Int) - (act0.reward : Int)) < 0
      · simp [mergeEra, ha, hd] at hok
      · cases hr : mergeEra actual era rest with
        | error e => simp [mergeEra, ha, hd, hr] at hok
        | ok rows0 =>
          by_cases hdid : d0 = did
          · subst hdid
            have he : e0 = exp := by simpa [mapGet] using hexp
            subst he
            cases hae : mapGet actual era with
            | none => simp [hae] at ha
            | some aset =>
              refine ⟨aset, act0, rfl, ?_, by omega⟩
              simpa [hae] using ha
          · have hexp' : mapGet rest did = some exp := by
              simpa [mapGet, hdid] using hexp
            exact ih rows0 hr hexp'

theorem mergeAll_ok_bound (actual expected : List (Nat × List (Nat × Reward)))
    (rows : List Row) (era did : Nat) (eset : List (Nat × Reward)) (exp : Reward)
    (hok : mergeAll actual expected = .ok rows)
    (hera : mapGet expected era = some eset)
    (hexp : mapGet eset did = some exp) :
    ∃ aset act, mapGet actual era = some aset ∧ mapGet aset did = some act ∧
      (act.reward : Int) ≤ (exp.reward : Int) := by
  induction expected generalizing rows with
  | nil => simp [mapGet] at hera
  | cons p rest ih =>
    obtain ⟨er0, es0⟩ := p
    cases h1 : mergeEra actual er0 es0 with
    | error e => simp [mergeAll, h1] at hok
    | ok rows0 =>
      cases h2 : mergeAll actual rest with
      | error e => simp [mergeAll, h1, h2] at hok
      | ok rows1 =>
        by_cases he : er0 = era
        · subst he
          have hes : es0 = eset := by simpa [mapGet] using hera
          subst hes
          exact mergeEra_ok_bound actual er0 es0 rows0 did exp h1 hexp
        · have hera' : mapGet rest era = some eset := by
            simpa [mapGet, he] using hera
          exact ih rows1 h2 hera'

/-- C1: if for any (era, recipient) pair the expected reward is strictly
below the actual reward (both looked up the way the merge loop does),
mergeAll aborts with an error and none of the four output artifacts of
main is written. -/
theorem negativeDelta_aborts_and_writes_nothing
    (actual expected : List (Nat × List (Nat × Reward)))
    (era did : Nat) (eset aset : List (Nat × Reward)) (exp act : Reward)
    (hera : mapGet expected era = some eset)
    (hexp : mapGet eset did = some exp)
    (haera : mapGet actual era = some aset)
    (hact : mapGet aset did = some act)
    (hlt : exp.reward < act.reward) :
    (∃ e, mergeAll actual expected = .error e) ∧ mainOutputs actual expected = [] := by
  cases hm : mergeAll actual expected with
  | error e => exact ⟨⟨e, rfl⟩, by simp [mainOutputs, hm]⟩
  | ok rows =>
    obtain ⟨aset', act', ha', hb', hc'⟩ :=
      mergeAll_ok_bound actual expected rows era did eset exp hm hera hexp
    rw [haera] at ha'
    injection ha' with ha''
    subst ha''
    rw [hact] at hb'
    injection hb' with hb''
    subst hb''
    omega

/-- Witness for C1 at a concrete one-era, one-recipient input where the
expected reward 5 is below the actual reward 9. -/
theorem negativeDelta_witness :
    (∃ e, mergeAll [(1, [(2, c1act)])] [(1, [(2, c1exp)])] = .error e) ∧
      mainOutputs [(1, [(2, c1act)])] [(1, [(2, c1exp)])] = [] :=
  negativeDelta_aborts_and_writes_nothing [(1, [(2, c1act)])] [(1, [(2, c1exp)])]
    1 2 [(2, c1exp)] [(2, c1act)] c1exp c1act rfl rfl rfl rfl (by decide)

theorem mapGet_insertAdd (acc : List (String × Int)) (k b : String) (d : Int) :
    mapGet (insertAdd acc b d) k =
      if k = b then some ((mapGet acc k).getD 0 + d) else mapGet acc k := by
  induction acc with
  | nil =>
    by_cases h : k = b
    · simp [mapGet, insertAdd, h]
    · simp [mapGet, insertAdd, h, Ne.symm h]
  | cons p rest ih =>
    obtain ⟨k', v'⟩ := p
    by_cases h1 : k' = b
    · subst h1
      by_cases h2 : k = k'
      · subst h2
        simp [mapGet, insertAdd]
      · simp [mapGet, insertAdd, h2, Ne.symm h2]
    · by_cases h2 : k = k'
      · subst h2
        simp [mapGet, insertAdd, h1, Ne.symm h1]
      · simp [mapGet, insertAdd, h1, h2, Ne.symm h2, ih]

theorem mapGet_ledger_foldl (rs : List Row) (acc : List (String × Int)) (b : String) :
    mapGet (rs.foldl (fun a r => insertAdd a r.beneficiary r.delta) acc) b =
      if (rs.any (fun r => decide (r.beneficiary = b)) || (mapGet acc b).isSome) = true then
        some ((mapGet acc b).getD 0 + sumDeltas b rs)
      else none := by
  induction rs generalizing acc with
  | nil => cases h : mapGet acc b <;> simp [sumDeltas, h]
  | cons r rest ih =>
    rw [List.foldl_cons, ih]
    by_cases hb : r.beneficiary = b
    · subst hb
      have hget : mapGet (insertAdd acc r.beneficiary r.delta) r.beneficiary =
          some ((mapGet acc r.beneficiary).getD 0 + r.delta) := by
        rw [mapGet_insertAdd, if_pos rfl]
      simp [hget, sumDeltas, add_assoc]
    · have hget : mapGet (insertAdd acc r.beneficiary r.delta) b = mapGet acc b := by
        rw [mapGet_insertAdd, if_neg (fun h => hb h.symm)]
      simp [hget, hb, sumDeltas]

theorem sumDeltas_filter_ne_zero (b : String) (rows : List Row) :
    sumDeltas b (rows.filter (fun r => decide (r.delta ≠ 0))) = sumDeltas b rows := by
  induction rows with
  | nil => rfl
  | cons r rest ih =>
    rw [List.filter_cons]
    by_cases hz : r.delta = 0
    · rw [if_neg (by simp [hz]), ih]
      show sumDeltas b rest = (if r.beneficiary = b then r.delta else 0) + sumDeltas b rest
      rw [hz]
      simp
    · rw [if_pos (by simp [hz])]
      show (if r.beneficiary = b then r.delta else 0) +
          sumDeltas b (rest.filter (fun r => decide (r.delta ≠ 0))) =
        (if r.beneficiary = b then r.delta else 0) + sumDeltas b rest
      rw [ih]

/-- C3: the ledger maps a beneficiary with at least one non-zero-delta
row to the sum of the deltas of all of its rows, across eras; a
beneficiary whose rows all have delta zero is absent from the ledger
(such rows remain in the detailed row list, which the ledger merely
filters without modifying). -/
theorem ledger_sums_deltas_per_beneficiary (rows : List Row) (b : String) :
    ((∃ r ∈ rows, r.beneficiary = b ∧ r.delta ≠ 0) →
       mapGet (reimburse rows) b = some (sumDeltas b rows)) ∧
    ((∀ r ∈ rows, r.beneficiary = b → r.delta = 0) →
       mapGet (reimburse rows) b = none) := by
  constructor
  · rintro ⟨r, hr, hb, hz⟩
    have hany : (rows.filter (fun r => decide (r.delta ≠ 0))).any
        (fun r => decide (r.beneficiary = b)) = true := by
      rw [List.any_eq_true]
      refine ⟨r, ?_, by simp [hb]⟩
      rw [List.mem_filter]
      exact ⟨hr, by simp [hz]⟩
    rw [reimburse, mapGet_ledger_foldl, hany, Bool.true_or, if_pos rfl]
    show some ((Option.none).getD 0 + _) = _
    rw [Option.getD_none, zero_add, sumDeltas_filter_ne_zero]
  · intro hall
    have hany : (rows.filter (fun r => decide (r.delta ≠ 0))).any
        (fun r => decide (r.beneficiary = b)) = false := by
      rw [List.any_eq_false]
      intro r hr
      rw [List.mem_filter] at hr
      have h1 : r.delta ≠ 0 := by simpa using hr.2
      simp only [decide_eq_true_eq]
      intro hb
      exact h1 (hall r hr.1 hb)
    rw [reimburse, mapGet_ledger_foldl, hany, Bool.false_or]
    show (if (Option.isSome Option.none) = true then _ else _) = _
    rw [Option.isSome_none, if_neg (by simp)]

/-- Witness for C3: beneficiary A with two non-zero rows is mapped to
the sum 80 of its deltas, and beneficiary B, whose only row has delta
zero, is absent from the ledger. -/
theorem ledger_sums_witness :
    mapGet (reimburse [c3rowA, c3rowB, c3rowA2]) "A" =
        some (sumDeltas "A" [c3rowA, c3rowB, c3rowA2]) ∧
      mapGet (reimburse [c3rowA, c3rowB, c3rowA2]) "B" = none :=
  ⟨(ledger_sums_deltas_per_beneficiary [c3rowA, c3rowB, c3rowA2] "A").1
      ⟨c3rowA, by simp, by simp [c3rowA]⟩,
   (ledger_sums_deltas_per_beneficiary [c3rowA, c3rowB, c3rowA2] "B").2 (by decide)⟩

theorem mergeEra_ok_delta_nonneg (actual : List (Nat × List (Nat × Reward))) (era : Nat)
    (eset : List (Nat × Reward)) (rows : List Row)
    (hok : mergeEra actual era eset = .ok rows) : ∀ r ∈ rows, 0 ≤ r.delta := by
  induction eset generalizing rows with
  | nil =>
    simp only [mergeEra, Except.ok.injEq] at hok
    subst hok
    simp
  | cons p rest ih =>
    obtain ⟨d0, e0⟩ := p
    cases ha : (mapGet actual era).bind (fun aset => mapGet aset d0) with
    | none => simp [mergeEra, ha] at hok
    | some act0 =>
      by_cases hd : ((e0.reward : Int) - (act0.reward : Int)) < 0
      · simp [mergeEra, ha, hd] at hok
      · cases hr : mergeEra actual era rest with
        | error e => simp [mergeEra, ha, hd, hr] at hok
        | ok rows0 =>
          simp only [mergeEra, ha, hd, hr, if_false, Except.ok.injEq] at hok
          subst hok
          intro r hr2
          rcases List.mem_cons.mp hr2 with h | h
          · subst h
            simpa using le_of_not_lt hd
          · exact ih rows0 hr r h

theorem mergeAll_ok_delta_nonneg (actual expected : List (Nat × List (Nat × Reward)))
    (rows : List Row) (hok : mergeAll actual expected = .ok rows) :
    ∀ r ∈ rows, 0 ≤ r.delta := by
  induction expected generalizing rows with
  | nil =>
    simp only [mergeAll, Except.ok.injEq] at hok
    subst hok
    simp
  | cons p rest ih =>
    obtain ⟨er0, es0⟩ := p
    cases h1 : mergeEra actual er0 es0 with
    | error e => simp [mergeAll, h1] at hok
    | ok rows0 =>
      cases h2 : mergeAll actual rest with
      | error e => simp [mergeAll, h1, h2] at hok
      | ok rows1 =>
        simp only [mergeAll, h1, h2, Except.ok.injEq] at hok
        subst hok
        intro r hr
        rcases List.mem_append.mp hr with h | h
        · exact mergeEra_ok_delta_nonneg actual er0 es0 rows0 h1 r h
        · exact ih rows1 h2 r h

theorem insertAdd_pos (acc : List (String × Int)) (b : String) (d : Int)
    (hacc : ∀ p ∈ acc, 0 < p.2) (hd : 0 < d) : ∀ p ∈ insertAdd acc b d, 0 < p.2 := by
  induction acc with
  | nil =>
    intro p hp
    simp only [insertAdd, List.mem_singleton] at hp
    subst hp
    exact hd
  | cons q rest ih =>
    obtain ⟨k, v⟩ := q
    intro p hp
    by_cases hk : k = b
    · rw [insertAdd, if_pos hk] at hp
      rcases List.mem_cons.mp hp with h | h
      · subst h
        have hv : (0 : Int) < v := hacc (k, v) (by simp)
        simp only []
        omega
      · exact hacc p (List.mem_cons_of_mem _ h)
    · rw [insertAdd, if_neg hk] at hp
      rcases List.mem_cons.mp hp with h | h
      · subst h
        exact hacc (k, v) (by simp)
      · exact ih (fun q hq => hacc q (List.mem_cons_of_mem _ hq)) p h

theorem foldl_insertAdd_pos (rs : List Row) :
    ∀ (acc : List (String × Int)), (∀ r ∈ rs, 0 < r.delta) → (∀ p ∈ acc, 0 < p.2) →
    ∀ p ∈ rs.foldl (fun a r => insertAdd a r.beneficiary r.delta) acc, 0 < p.2 := by
  induction rs with
  | nil =>
    intro acc _ hacc
    simpa using hacc
  | cons r rest ih =>
    intro acc hrs hacc
    rw [List.foldl_cons]
    exact ih _ (fun q hq => hrs q (List.mem_cons_of_mem _ hq))
      (insertAdd_pos acc r.beneficiary r.delta hacc (hrs r (by simp)))

theorem foldl_add_ge (xs : List Int) (a : Int) (h : ∀ x ∈ xs, 0 ≤ x) :
    a ≤ xs.foldl (fun s x => s + x) a := by
  induction xs generalizing a with
  | nil => simp
  | cons x rest ih =>
    rw [List.foldl_cons]
    have h1 : a ≤ a + x := by
      have := h x (by simp)
      omega
    exact le_trans h1 (ih (a + x) (fun y hy => h y (List.mem_cons_of_mem _ hy)))

/-- C10: when the merge loop completes without error, every amount in
the reimbursement ledger is strictly positive, and the aggregate
reimbursement total is strictly positive whenever the ledger is
non-empty. -/
theorem ledger_amounts_positive (actual expected : List (Nat × List (Nat × Reward)))
    (rows : List Row) (hok : mergeAll actual expected = .ok rows) :
    (∀ p ∈ reimburse rows, 0 < p.2) ∧ (reimburse rows ≠ [] → 0 < totalReimburse rows) := by
  have hnn := mergeAll_ok_delta_nonneg actual expected rows hok
  have hpos : ∀ r ∈ rows.filter (fun r => decide (r.delta ≠ 0)), 0 < r.delta := by
    intro r hr
    rw [List.mem_filter] at hr
    have h1 := hnn r hr.1
    have h2 : r.delta ≠ 0 := by simpa using hr.2
    omega
  have hall : ∀ p ∈ reimburse rows, 0 < p.2 :=
    foldl_insertAdd_pos _ [] hpos (by simp)
  refine ⟨hall, fun hne => ?_⟩
  rw [totalReimburse]
  cases hl : reimburse rows with
  | nil => exact absurd hl hne
  | cons p rest =>
    rw [List.map_cons, List.foldl_cons, zero_add]
    have hp : 0 < p.2 := hall p (by rw [hl]; simp)
    have hrest : ∀ x ∈ rest.map Prod.snd, (0 : Int) ≤ x := by
      intro x hx
      rw [List.mem_map] at hx
      obtain ⟨q, hq, hqx⟩ := hx
      have := hall q (by rw [hl]; exact List.mem_cons_of_mem _ hq)
      omega
    have := foldl_add_ge (rest.map Prod.snd) p.2 hrest
    omega

/-- Witness for C10 at a concrete successful run with one positive
delta: the aggregate reimbursement total is strictly positive. -/
theorem ledger_amounts_positive_witness : 0 < totalReimburse c10rows :=
  (ledger_amounts_positive c10actual c10expected c10rows (by rfl)).2 (by decide)

theorem mergeEra_ok_era_eq (actual : List (Nat × List (Nat × Reward))) (era : Nat)
    (eset : List (Nat × Reward)) (rows : List Row)
    (hok : mergeEra actual era eset = .ok rows) : ∀ r ∈ rows, r.era = era := by
  induction eset generalizing rows with
  | nil =>
    simp only [mergeEra, Except.ok.injEq] at hok
    subst hok
    simp
  | cons p rest ih =>
    obtain ⟨d0, e0⟩ := p
    cases ha : (mapGet actual era).bind (fun aset => mapGet aset d0) with
    | none => simp [mergeEra, ha] at hok
    | some act0 =>
      by_cases hd : ((e0.reward : Int) - (act0.reward : Int)) < 0
      · simp [mergeEra, ha, hd] at hok
      · cases hr : mergeEra actual era rest with
        | error e => simp [mergeEra, ha, hd, hr] at hok
        | ok rows0 =>
          simp only [mergeEra, ha, hd, hr, if_false, Except.ok.injEq] at hok
          subst hok
          intro r hr2
          rcases List.mem_cons.mp hr2 with h | h
          · subst h
            rfl
          · exact ih rows0 hr r h

theorem mergeEra_ok_mem_iff (actual : List (Nat × List (Nat × Reward))) (era : Nat)
    (eset : List (Nat × Reward)) (rows : List Row) (did : Nat)
    (hok : mergeEra actual era eset = .ok rows) :
    (∃ r ∈ rows, r.dapp_id = did) ↔ (∃ exp, mapGet eset did = some exp) := by
  induction eset generalizing rows with
  | nil =>
    simp only [mergeEra, Except.ok.injEq] at hok
    subst hok
    simp [mapGet]
  | cons p rest ih =>
    obtain ⟨d0, e0⟩ := p
    cases ha : (mapGet actual era).bind (fun aset => mapGet aset d0) with
    | none => simp [mergeEra, ha] at hok
    | some act0 =>
      by_cases hd : ((e0.reward : Int) - (act0.reward : Int)) < 0
      · simp [mergeEra, ha, hd] at hok
      · cases hr : mergeEra actual era rest with
        | error e => simp [mergeEra, ha, hd, hr] at hok
        | ok rows0 =>
          simp only [mergeEra, ha, hd, hr, if_false, Except.ok.injEq] at hok
          subst hok
          constructor
          · rintro ⟨r, hr2, hdid⟩
            rcases List.mem_cons.mp hr2 with h | h
            · subst h
              have hd0 : d0 = did := hdid
              exact ⟨e0, by simp [mapGet, hd0]⟩
            · obtain ⟨exp, hexp⟩ := (ih rows0 hr).mp ⟨r, h, hdid⟩
              by_cases hd0 : d0 = did
              · exact ⟨e0, by simp [mapGet, hd0]⟩
              · exact ⟨exp, by simp [mapGet, hd0, hexp]⟩
          · rintro ⟨exp, hexp⟩
            by_cases hd0 : d0 = did
            · exact ⟨_, List.mem_cons_self _ _, hd0⟩
            · have hexp' : mapGet rest did = some exp := by
                simpa [mapGet, hd0] using hexp
              obtain ⟨r, hr2, hdid⟩ := (ih rows0 hr).mpr ⟨exp, hexp'⟩
              exact ⟨r, List.mem_cons_of_mem _ hr2, hdid⟩

theorem mergeAll_ok_mem_iff (actual : List (Nat × List (Nat × Reward))) (era did : Nat) :
    ∀ (expected : List (Nat × List (Nat × Reward))) (rows : List Row),
    (expected.map Prod.fst).Nodup → mergeAll actual expected = .ok rows →
    ((∃ r ∈ rows, r.era = era ∧ r.dapp_id = did) ↔
      (∃ eset exp, mapGet expected era = some eset ∧ mapGet eset did = some exp)) := by
  intro expected
  induction expected with
  | nil =>
    intro rows _ hok
    simp only [mergeAll, Except.ok.injEq] at hok
    subst hok
    simp [mapGet]
  | cons p rest ih =>
    intro rows hnd hok
    obtain ⟨er0, es0⟩ := p
    rw [List.map_cons, List.nodup_cons] at hnd
    cases h1 : mergeEra actual er0 es0 with
    | error e => simp [mergeAll, h1] at hok
    | ok rows0 =>
      cases h2 : mergeAll actual rest with
      | error e => simp [mergeAll, h1, h2] at hok
      | ok rows1 =>
        simp only [mergeAll, h1, h2, Except.ok.injEq] at hok
        subst hok
        constructor
        · rintro ⟨r, hr, hera, hdid⟩
          rcases List.mem_append.mp hr with h | h
          · have her0 : r.era = er0 := mergeEra_ok_era_eq actual er0 es0 rows0 h1 r h
            have heq : er0 = era := her0.symm.trans hera
            subst heq
            obtain ⟨exp, hexp⟩ := (mergeEra_ok_mem_iff actual er0 es0 rows0 did h1).mp ⟨r, h, hdid⟩
            exact ⟨es0, exp, by simp [mapGet], hexp⟩
          · obtain ⟨eset, exp, hg, hexp⟩ := (ih rows1 hnd.2 h2).mp ⟨r, h, hera, hdid⟩
            have hne : er0 ≠ era := by
              intro hcontra
              subst hcontra
              exact hnd.1 (mapGet_some_key_mem rest er0 eset hg)
            exact ⟨eset, exp, by simp [mapGet, hne, hg], hexp⟩
        · rintro ⟨eset, exp, hg, hexp⟩
          by_cases he : er0 = era
          · subst he
            have hes : es0 = eset := by simpa [mapGet] using hg
            subst hes
            obtain ⟨r, hr, hdid⟩ := (mergeEra_ok_mem_iff actual er0 es0 rows0 did h1).mpr ⟨exp, hexp⟩
            have hera := mergeEra_ok_era_eq actual er0 es0 rows0 h1 r hr
            exact ⟨r, List.mem_append.mpr (Or.inl hr), hera, hdid⟩
          · have hg' : mapGet rest era = some eset := by
              simpa [mapGet, he] using hg
            obtain ⟨r, hr, hera, hdid⟩ := (ih rows1 hnd.2 h2).mpr ⟨eset, exp, hg', hexp⟩
            exact ⟨r, List.mem_append.mpr (Or.inr hr), hera, hdid⟩

/-- Counterexample to C2 as stated: recipient 5 is present in the era-1
actual reward set but absent from the era-1 expected set; the claim
demands a fatal lookup error for a recipient present in only one of the
two sets, but the merge loop iterates over the expected sets only, so
it completes successfully and just emits no row for recipient 5. -/
theorem actual_only_recipient_no_error :
    mergeAll [(1, [(5, c2onlyActual)])] [(1, [])] = .ok [] ∧
      mapGet ([] : List (Nat × Reward)) 5 = none ∧
      mapGet [(5, c2onlyActual)] 5 = some c2onlyActual :=
  ⟨rfl, rfl, rfl⟩

/-- C2 amended: under a successful merge with unique era keys, a row
for (era, recipient) exists iff the recipient is present in both the
expected and the actual set of that era; a recipient present in an
expected era set whose actual counterpart lookup fails makes the merge
abort with an error. A recipient present only in an actual set is
silently skipped with no error (see the counterexample). -/
theorem row_presence_iff_and_expected_only_fatal
    (actual expected : List (Nat × List (Nat × Reward))) (era did : Nat) :
    (∀ rows, (expected.map Prod.fst).Nodup → mergeAll actual expected = .ok rows →
      ((∃ r ∈ rows, r.era = era ∧ r.dapp_id = did) ↔
        ((∃ eset exp, mapGet expected era = some eset ∧ mapGet eset did = some exp) ∧
         (∃ aset act, mapGet actual era = some aset ∧ mapGet aset did = some act)))) ∧
    (∀ eset exp, mapGet expected era = some eset → mapGet eset did = some exp →
      (mapGet actual era).bind (fun aset => mapGet aset did) = none →
      ∃ e, mergeAll actual expected = .error e) := by
  constructor
  · intro rows hnd hok
    rw [mergeAll_ok_mem_iff actual era did expected rows hnd hok]
    constructor
    · rintro ⟨eset, exp, hg, hexp⟩
      refine ⟨⟨eset, exp, hg, hexp⟩, ?_⟩
      obtain ⟨aset, act, ha1, ha2, _⟩ :=
        mergeAll_ok_bound actual expected rows era did eset exp hok hg hexp
      exact ⟨aset, act, ha1, ha2⟩
    · rintro ⟨h, _⟩
      exact h
  · intro eset exp hg hexp hnone
    cases hm : mergeAll actual expected with
    | error e => exact ⟨e, rfl⟩
    | ok rows =>
      obtain ⟨aset, act, ha1, ha2, _⟩ :=
        mergeAll_ok_bound actual expected rows era did eset exp hm hg hexp
      rw [ha1] at hnone
      simp [ha2] at hnone

/-- Witness for C2 (amended) at a concrete input where recipient 5 is
present only in the expected side: the merge aborts with an error. -/
theorem row_presence_witness :
    ∃ e, mergeAll [(1, ([] : List (Nat × Reward)))] [(1, [(5, c2exp)])] = .error e :=
  (row_presence_iff_and_expected_only_fatal [(1, [])] [(1, [(5, c2exp)])] 1 5).2
    [(5, c2exp)] c2exp rfl rfl rfl

theorem ensureHasEvent_ok_iff_mem (evs : List Event) :
    ensureHasEvent evs = .ok () ↔
      ∃ e ∈ evs, e.sectionName = "dappStaking" ∧ e.method = "NewEra" := by
  induction evs with
  | nil => simp [ensureHasEvent]
  | cons e rest ih =>
    by_cases h : e.sectionName = "dappStaking" ∧ e.method = "NewEra"
    · simp only [ensureHasEvent, if_pos h]
      constructor
      · intro _
        exact ⟨e, List.mem_cons_self _ _, h⟩
      · intro _
        trivial
    · simp only [ensureHasEvent, if_neg h]
      constructor
      · intro hok
        obtain ⟨x, hx, hp⟩ := ih.mp hok
        exact ⟨x, List.mem_cons_of_mem _ hx, hp⟩
      · rintro ⟨x, hx, hp⟩
        rcases List.mem_cons.mp hx with h1 | h1
        · subst h1
          exact absurd hp h
        · exact ih.mpr ⟨x, h1, hp⟩

theorem ensureHasEvent_not_ok_eq_error (evs : List Event)
    (hne : ensureHasEvent evs ≠ .ok ()) :
    ensureHasEvent evs = .error "Missing dappStaking::NewEra event" := by
  induction evs with
  | nil => rfl
  | cons e rest ih =>
    by_cases h : e.sectionName = "dappStaking" ∧ e.method = "NewEra"
    · exact absurd (by simp only [ensureHasEvent, if_pos h]) hne
    · simp only [ensureHasEvent, if_neg h] at hne ⊢
      exact ih hne

/-- C7: ensureHasEvent returns normally iff the event list contains at
least one event with section dappStaking and method NewEra; otherwise
it returns the fixed error; and a scanner iteration or a replay
iteration anchored at a block whose events lack that event aborts with
missingEvent instead of continuing. -/
theorem ensureHasEvent_ok_iff (events : List Event) :
    (ensureHasEvent events = .ok () ↔
       ∃ e ∈ events, e.sectionName = "dappStaking" ∧ e.method = "NewEra") ∧
    (ensureHasEvent events ≠ .ok () →
       ensureHasEvent events = .error "Missing dappStaking::NewEra event") ∧
    (∀ (chain : ChainView) (endBlock fuel : Nat) (ps : ProtocolState) (acc : ScanAcc),
       chain.events ps.nextEraStart = events → ensureHasEvent events ≠ .ok () →
       scanGo chain endBlock (fuel + 1) ps acc = .error .missingEvent) ∧
    (∀ (backend : Nat → Fork) (tc : Option String) (era block : Nat),
       (backend (block - 1)).events = events → ensureHasEvent events ≠ .ok () →
       (replayStep backend tc era block).2 = .error .missingEvent) := by
  refine ⟨ensureHasEvent_ok_iff_mem events, ensureHasEvent_not_ok_eq_error events, ?_, ?_⟩
  · intro chain endBlock fuel ps acc hev hne
    have h1 : ensureHasEvent (chain.events ps.nextEraStart) =
        .error "Missing dappStaking::NewEra event" := by
      rw [hev]
      exact ensureHasEvent_not_ok_eq_error events hne
    simp [scanGo, h1]
  · intro backend tc era block hev hne
    have h1 : ensureHasEvent (backend (block - 1)).events =
        .error "Missing dappStaking::NewEra event" := by
      rw [hev]
      exact ensureHasEvent_not_ok_eq_error events hne
    simp [replayStep, h1]

/-- Witness for C7: a concrete list containing the era-advance event
passes the check, and the empty list produces the fixed error. -/
theorem ensureHasEvent_witness :
    ensureHasEvent [{ sectionName := "dappStaking", method := "NewEra" }] = .ok () ∧
      ensureHasEvent [] = .error "Missing dappStaking::NewEra event" :=
  ⟨(ensureHasEvent_ok_iff [{ sectionName := "dappStaking", method := "NewEra" }]).1.mpr
      ⟨{ sectionName := "dappStaking", method := "NewEra" }, by simp, rfl, rfl⟩,
   (ensureHasEvent_ok_iff []).2.1 (by simp [ensureHasEvent])⟩

theorem extractGo_mono (info : DAppTiersInfo) (dir : List DApp) :
    ∀ (l : List (Nat × Nat)) (acc res : List (Nat × Reward)) (k : Nat) (r : Reward),
    extractGo info dir l acc = .ok res → mapGet acc k = some r →
    ∃ r2, mapGet res k = some r2 := by
  intro l
  induction l with
  | nil =>
    intro acc res k r hok hacc
    simp only [extractGo, Except.ok.injEq] at hok
    subst hok
    exact ⟨r, hacc⟩
  | cons p rest ih =>
    intro acc res k r hok hacc
    obtain ⟨dappId, tierId⟩ := p
    cases hf : dir.find? (fun x => x.id == dappId) with
    | none => simp [extractGo, hf] at hok
    | some dapp =>
      simp only [extractGo, hf] at hok
      by_cases hk : k = dappId
      · refine ih _ res k
          { reward := info.rewards.getD tierId 0, tierId := tierId,
            beneficiary := beneficiaryOf dapp } hok ?_
        rw [mapGet_mapSet, if_pos hk]
      · refine ih _ res k r hok ?_
        rw [mapGet_mapSet, if_neg hk]
        exact hacc

theorem extractGo_mem (info : DAppTiersInfo) (dir : List DApp) :
    ∀ (l : List (Nat × Nat)) (acc res : List (Nat × Reward)) (did tid : Nat),
    extractGo info dir l acc = .ok res → (did, tid) ∈ l →
    ∃ r, mapGet res did = some r := by
  intro l
  induction l with
  | nil =>
    intro acc res did tid _ hmem
    simp at hmem
  | cons p rest ih =>
    intro acc res did tid hok hmem
    obtain ⟨dappId, tierId⟩ := p
    cases hf : dir.find? (fun x => x.id == dappId) with
    | none => simp [extractGo, hf] at hok
    | some dapp =>
      simp only [extractGo, hf] at hok
      rcases List.mem_cons.mp hmem with h | h
      · injection h with h1 h2
        subst h1
        refine extractGo_mono info dir rest _ res did
          { reward := info.rewards.getD tierId 0, tierId := tierId,
            beneficiary := beneficiaryOf dapp } hok ?_
        rw [mapGet_mapSet, if_pos rfl]
      · exact ih _ res did tid hok h

theorem extractGo_beneficiary (info : DAppTiersInfo) (dir : List DApp) :
    ∀ (l : List (Nat × Nat)) (acc res : List (Nat × Reward)) (k : Nat) (r : Reward),
    extractGo info dir l acc = .ok res → mapGet res k = some r →
    mapGet acc k = some r ∨
      ∃ d, dir.find? (fun x => x.id == k) = some d ∧ r.beneficiary = beneficiaryOf d := by
  intro l
  induction l with
  | nil =>
    intro acc res k r hok hres
    simp only [extractGo, Except.ok.injEq] at hok
    subst hok
    exact Or.inl hres
  | cons p rest ih =>
    intro acc res k r hok hres
    obtain ⟨dappId, tierId⟩ := p
    cases hf : dir.find? (fun x => x.id == dappId) with
    | none => simp [extractGo, hf] at hok
    | some dapp =>
      simp only [extractGo, hf] at hok
      rcases ih _ res k r hok hres with h | h
      · rw [mapGet_mapSet] at h
        by_cases hk : k = dappId
        · rw [if_pos hk] at h
          right
          refine ⟨dapp, ?_, ?_⟩
          · rw [hk]
            exact hf
          · injection h with h2
            rw [← h2]
        · rw [if_neg hk] at h
          exact Or.inl h
      · exact Or.inr h

theorem extractGo_find (info : DAppTiersInfo) (dir : List DApp) :
    ∀ (l : List (Nat × Nat)) (acc res : List (Nat × Reward)) (did tid : Nat),
    extractGo info dir l acc = .ok res → (did, tid) ∈ l →
    ∃ d, dir.find? (fun x => x.id == did) = some d := by
  intro l
  induction l with
  | nil =>
    intro acc res did tid _ hmem
    simp at hmem
  | cons p rest ih =>
    intro acc res did tid hok hmem
    obtain ⟨dappId, tierId⟩ := p
    cases hf : dir.find? (fun x => x.id == dappId) with
    | none => simp [extractGo, hf] at hok
    | some dapp =>
      simp only [extractGo, hf] at hok
      rcases List.mem_cons.mp hmem with h | h
      · injection h with h1 h2
        subst h1
        exact ⟨dapp, hf⟩
      · exact ih _ res did tid hok h

theorem extractGo_missing (info : DAppTiersInfo) (dir : List DApp) :
    ∀ (l : List (Nat × Nat)) (acc : List (Nat × Reward)) (did tid : Nat),
    (did, tid) ∈ l → dir.find? (fun x => x.id == did) = none →
    extractGo info dir l acc = .error "dapp should exists" := by
  intro l
  induction l with
  | nil =>
    intro acc did tid hmem _
    simp at hmem
  | cons p rest ih =>
    intro acc did tid hmem hnone
    obtain ⟨dappId, tierId⟩ := p
    rcases List.mem_cons.mp hmem with h | h
    · injection h with h1 h2
      subst h1
      simp only [extractGo, hnone]
    · cases hf : dir.find? (fun x => x.id == dappId) with
      | none => simp only [extractGo, hf]
      | some dapp =>
        simp only [extractGo, hf]
        exact ih _ did tid h hnone

/-- C8: for every (dappId, tierId) entry of the tiers table, assuming
reward-beneficiary overrides are never the empty string (polkadot-js
serializes an optional AccountId as null or a non-empty address
string), a successful extraction yields a record whose beneficiary is
the override when one is set and the registered owner otherwise; and a
dappId absent from the integratedDApps directory makes the extraction
throw the dapp should exists error. -/
theorem beneficiary_resolution_and_missing_dapp_fatal
    (info : DAppTiersInfo) (dir : List DApp) (did tid : Nat)
    (hne : ∀ d ∈ dir, d.rewardBeneficiary ≠ some "")
    (hmem : (did, tid) ∈ info.dapps) :
    (∀ res, extractRewards info dir = .ok res →
       ∃ d r, dir.find? (fun x => x.id == did) = some d ∧ mapGet res did = some r ∧
         r.beneficiary = d.rewardBeneficiary.getD d.owner) ∧
    (dir.find? (fun x => x.id == did) = none →
       extractRewards info dir = .error "dapp should exists") := by
  constructor
  · intro res hok
    obtain ⟨d, hd⟩ := extractGo_find info dir info.dapps [] res did tid hok hmem
    obtain ⟨r, hr⟩ := extractGo_mem info dir info.dapps [] res did tid hok hmem
    rcases extractGo_beneficiary info dir info.dapps [] res did r hok hr with h | ⟨d2, hd2, hb⟩
    · simp [mapGet] at h
    · rw [hd] at hd2
      injection hd2 with hd3
      subst hd3
      refine ⟨d, r, hd, hr, ?_⟩
      rw [hb]
      have hdmem : d ∈ dir := List.mem_of_find?_eq_some hd
      have hne2 := hne d hdmem
      cases hrb : d.rewardBeneficiary with
      | none => simp [beneficiaryOf, hrb]
      | some s =>
        have hs : s ≠ "" := by
          intro hcontra
          subst hcontra
          exact hne2 hrb
        simp [beneficiaryOf, hrb, hs]
  · intro hnone
    exact extractGo_missing info dir info.dapps [] did tid hmem hnone

/-- Witness for C8: in a concrete directory, dapp 1 with an override
resolves to the override address. -/
theorem beneficiary_resolution_witness :
    ∃ d r, c8dir.find? (fun x => x.id == 1) = some d ∧
      mapGet c8res 1 = some r ∧
      r.beneficiary = d.rewardBeneficiary.getD d.owner :=
  (beneficiary_resolution_and_missing_dapp_fatal c8info c8dir 1 0 (by decide) (by decide)).1
    c8res rfl

/-- C9: the scanner loop body executes at least once (do-while): with
fuel for a single iteration, even when the initial protocol state
already has nextEraStart at or beyond endBlock, the boundary and the
actual reward set of the initial era are recorded, provided the
era-advance event is present, extraction succeeds, and the refreshed
protocol state also reports nextEraStart at or beyond endBlock. -/
theorem scanner_body_runs_at_least_once (chain : ChainView) (endBlock : Nat)
    (ps : ProtocolState) (rws : List (Nat × Reward))
    (_hstart : endBlock ≤ ps.nextEraStart)
    (hev : ensureHasEvent (chain.events ps.nextEraStart) = .ok ())
    (hx : extractRewards (chain.dAppTiers ps.nextEraStart ps.era)
            (chain.integratedDApps ps.nextEraStart) = .ok rws)
    (hstop : endBlock ≤ (chain.protocolState ps.nextEraStart).nextEraStart) :
    scanGo chain endBlock 1 ps ⟨[], []⟩ =
      .ok ⟨[(ps.era, ps.nextEraStart)], [(ps.era, rws)]⟩ := by
  show scanGo chain endBlock (0 + 1) ps ⟨[], []⟩ = _
  simp only [scanGo, hev, hx]
  rw [if_neg (by omega)]
  rfl

/-- Witness for C9: a concrete chain with initial nextEraStart 500 and
end block 100 still records the boundary and reward set of era 7. -/
theorem scanner_body_witness :
    scanGo c9chain 100 1 { era := 7, nextEraStart := 500 } ⟨[], []⟩ =
      .ok ⟨[(7, 500)], [(7, [])]⟩ :=
  scanner_body_runs_at_least_once c9chain 100 { era := 7, nextEraStart := 500 } []
    (by decide) rfl rfl (by decide)

/-- Counterexample to C5 as stated: on a chain that keeps reporting the
same era boundary 100, below the end block 200, the scanner has no
explicit guard: after 50 iterations it is still looping (modelled as
fuel exhaustion), having produced neither output nor any fatal
non-advancing-boundary error. -/
theorem scanner_no_guard_counterexample :
    scanGo c5chain 200 50 { era := 1, nextEraStart := 100 } ⟨[], []⟩ =
      .error .outOfFuel := rfl

/-- C5 amended: the scanner has no explicit non-advancing-boundary
guard; if the protocol state read back at the boundary block equals the
current one while its nextEraStart stays below endBlock, and the
per-iteration checks pass, the do-while loop never terminates: for
every amount of fuel the scan is still running, with neither an abort
nor an output. -/
theorem scanner_loops_forever_on_stuck_boundary (chain : ChainView) (endBlock : Nat)
    (ps : ProtocolState)
    (hlt : ps.nextEraStart < endBlock)
    (hfix : chain.protocolState ps.nextEraStart = ps)
    (hev : ensureHasEvent (chain.events ps.nextEraStart) = .ok ())
    (hx : ∃ rws, extractRewards (chain.dAppTiers ps.nextEraStart ps.era)
            (chain.integratedDApps ps.nextEraStart) = .ok rws) :
    ∀ (fuel : Nat) (acc : ScanAcc), scanGo chain endBlock fuel ps acc = .error .outOfFuel := by
  obtain ⟨rws, hx⟩ := hx
  intro fuel
  induction fuel with
  | zero =>
    intro acc
    rfl
  | succ n ih =>
    intro acc
    simp only [scanGo, hev, hx]
    rw [hfix, if_pos hlt]
    exact ih _

/-- Witness for C5 (amended) at the concrete stuck chain with fuel 5. -/
theorem scanner_stuck_witness :
    scanGo c5chain 200 5 { era := 1, nextEraStart := 100 } ⟨[(1, 100)], [(1, [])]⟩ =
      .error .outOfFuel :=
  scanner_loops_forever_on_stuck_boundary c5chain 200 { era := 1, nextEraStart := 100 }
    (by decide) rfl rfl ⟨[], rfl⟩ 5 ⟨[(1, 100)], [(1, [])]⟩

theorem countP_acquire_stepPre (tc : Option String) (block : Nat) :
    (stepPre tc block).countP isAcquire = 1 := by
  cases tc with
  | none => rfl
  | some c =>
    by_cases hc : c = ""
    · simp [stepPre, hc, isAcquire]
    · simp [stepPre, hc, isAcquire]

theorem countP_teardown_stepPre (tc : Option String) (block : Nat) :
    (stepPre tc block).countP isTeardown = 0 := by
  cases tc with
  | none => rfl
  | some c =>
    by_cases hc : c = ""
    · simp [stepPre, hc, isTeardown]
    · simp [stepPre, hc, isTeardown]

theorem okNesting_stepSucc (tc : Option String) (block : Nat) (cfg : String)
    (l2 : List ReplayEvent) :
    okNesting 0 ((stepPre tc block ++ [.readConfig cfg, .settle 1000, .teardown]) ++ l2) =
      okNesting 0 l2 := by
  cases tc with
  | none => simp [stepPre, okNesting]
  | some c =>
    by_cases hc : c = ""
    · simp [stepPre, hc, okNesting]
    · simp [stepPre, hc, okNesting]

theorem replayLoop_teardown_counts (backend : Nat → Fork) :
    ∀ (l : List (Nat × Nat)) (tc : Option String) (acc : List (Nat × List (Nat × Reward)))
      (tr : List ReplayEvent) (r : Except ReplayError (List (Nat × List (Nat × Reward)))),
    replayLoop backend l tc acc = (tr, r) →
    ((∃ m, r = .ok m) → okNesting 0 tr = true ∧
       tr.countP isAcquire = l.length ∧ tr.countP isTeardown = l.length) ∧
    ((∃ e, r = .error e) → tr.countP isAcquire = tr.countP isTeardown + 1) := by
  intro l
  induction l with
  | nil =>
    intro tc acc tr r heq
    simp only [replayLoop, Prod.mk.injEq] at heq
    obtain ⟨htr, hr⟩ := heq
    subst htr
    subst hr
    refine ⟨fun _ => ⟨rfl, rfl, rfl⟩, ?_⟩
    rintro ⟨e, he⟩
    simp at he
  | cons p rest ih =>
    intro tc acc tr r heq
    obtain ⟨era, block⟩ := p
    cases hev : ensureHasEvent (backend (block - 1)).events with
    | error er =>
      have hstep : replayStep backend tc era block = (stepPre tc block, .error .missingEvent) := by
        simp [replayStep, hev]
      simp only [replayLoop, hstep, Prod.mk.injEq] at heq
      obtain ⟨htr, hr⟩ := heq
      subst htr
      subst hr
      constructor
      · rintro ⟨m, hm⟩
        simp at hm
      · intro _
        rw [countP_acquire_stepPre, countP_teardown_stepPre]
    | ok u =>
      cases hx : extractRewards ((backend (block - 1)).dAppTiers era)
          (backend (block - 1)).integratedDApps with
      | error er =>
        have hstep : replayStep backend tc era block =
            (stepPre tc block ++ [.readConfig (backend (block - 1)).tierConfigHex],
             .error .missingDApp) := by
          simp [replayStep, hev, hx]
        simp only [replayLoop, hstep, Prod.mk.injEq] at heq
        obtain ⟨htr, hr⟩ := heq
        subst htr
        subst hr
        constructor
        · rintro ⟨m, hm⟩
          simp at hm
        · intro _
          rw [List.countP_append, List.countP_append,
            countP_acquire_stepPre, countP_teardown_stepPre]
          rfl
      | ok rws =>
        have hstep : replayStep backend tc era block =
            (stepPre tc block ++
               [.readConfig (backend (block - 1)).tierConfigHex, .settle 1000, .teardown],
             .ok ((backend (block - 1)).tierConfigHex, rws)) := by
          simp [replayStep, hev, hx]
        rcases hrec : replayLoop backend rest
            (some (backend (block - 1)).tierConfigHex) (mapSet acc era rws) with ⟨tr2, r2⟩
        simp only [replayLoop, hstep, hrec, Prod.mk.injEq] at heq
        obtain ⟨htr, hr⟩ := heq
        subst htr
        subst hr
        have IH := ih (some (backend (block - 1)).tierConfigHex) (mapSet acc era rws) tr2 r2 hrec
        constructor
        · rintro ⟨m, hm⟩
          obtain ⟨hnest, hca, hct⟩ := IH.1 ⟨m, hm⟩
          refine ⟨?_, ?_, ?_⟩
          · rw [okNesting_stepSucc]
            exact hnest
          · rw [List.countP_append, List.countP_append, countP_acquire_stepPre]
            simp only [List.length_cons]
            have hc1 : List.countP isAcquire
                [ReplayEvent.readConfig (backend (block - 1)).tierConfigHex,
                 ReplayEvent.settle 1000, ReplayEvent.teardown] = 0 := rfl
            rw [hc1, hca]
            omega
          · rw [List.countP_append, List.countP_append, countP_teardown_stepPre]
            simp only [List.length_cons]
            have hc1 : List.countP isTeardown
                [ReplayEvent.readConfig (backend (block - 1)).tierConfigHex,
                 ReplayEvent.settle 1000, ReplayEvent.teardown] = 1 := rfl
            rw [hc1, hct]
            omega
        · rintro ⟨e, he⟩
          have h2 := IH.2 ⟨e, he⟩
          rw [List.countP_append, List.countP_append, List.countP_append, List.countP_append,
            countP_acquire_stepPre, countP_teardown_stepPre]
          have hc1 : List.countP isAcquire
              [ReplayEvent.readConfig (backend (block - 1)).tierConfigHex,
               ReplayEvent.settle 1000, ReplayEvent.teardown] = 0 := rfl
          have hc2 : List.countP isTeardown
              [ReplayEvent.readConfig (backend (block - 1)).tierConfigHex,
               ReplayEvent.settle 1000, ReplayEvent.teardown] = 1 := rfl
          rw [hc1, hc2]
          omega

/-- C6 amended: on the success path every replay iteration tears its
fork down exactly once, strictly alternating with acquisitions (never
two forks open, never a teardown without an open fork) before the next
acquisition; but when any later step of an iteration fails (missing
era-advance event or failed reward extraction), the run aborts with the
current fork never torn down: acquisitions in the trace exceed
teardowns by one. -/
theorem teardown_once_on_success_none_on_failure (backend : Nat → Fork)
    (l : List (Nat × Nat)) (tr : List ReplayEvent)
    (r : Except ReplayError (List (Nat × List (Nat × Reward))))
    (heq : replayLoop backend l none [] = (tr, r)) :
    ((∃ m, r = .ok m) → okNesting 0 tr = true ∧
       tr.countP isAcquire = l.length ∧ tr.countP isTeardown = l.length) ∧
    ((∃ e, r = .error e) → tr.countP isAcquire = tr.countP isTeardown + 1) :=
  replayLoop_teardown_counts backend l none [] tr r heq

/-- Counterexample to C6 as stated: when the era-advance-event check of
an iteration fails, the loop aborts and the acquired fork is never torn
down: the trace holds the acquisition but no teardown action. -/
theorem failed_step_skips_teardown :
    replayLoop c6backend [(3, 10)] none [] =
      ([ReplayEvent.acquire 9, ReplayEvent.setWasm, ReplayEvent.produceBlock],
        .error .missingEvent) ∧
      List.countP isTeardown
        [ReplayEvent.acquire 9, ReplayEvent.setWasm, ReplayEvent.produceBlock] = 0 ∧
      List.countP isAcquire
        [ReplayEvent.acquire 9, ReplayEvent.setWasm, ReplayEvent.produceBlock] = 1 :=
  ⟨rfl, rfl, rfl⟩

/-- Witness for C6 (amended) on a healthy two-era run: the trace has
exactly two acquisitions and two teardowns, strictly alternating. -/
theorem teardown_witness :
    okNesting 0 c4trace = true ∧
      c4trace.countP isAcquire = 2 ∧ c4trace.countP isTeardown = 2 :=
  (teardown_once_on_success_none_on_failure c4backend [(1, 10), (2, 20)] c4trace
      (.ok [(1, []), (2, [])]) rfl).1 ⟨[(1, []), (2, [])], rfl⟩

theorem dropLast_append_left {α : Type} (l1 l2 : List α) (h : l2 ≠ []) :
    (l1 ++ l2).dropLast = l1 ++ l2.dropLast := by
  induction l1 with
  | nil => simp
  | cons x rest ih =>
    have hne : rest ++ l2 ≠ [] := by
      intro hc
      rcases List.append_eq_nil.mp hc with ⟨_, h2⟩
      exact h h2
    rw [List.cons_append, List.dropLast_cons_of_ne_nil hne, ih, List.cons_append]

theorem overrideVals_append (a b : List ReplayEvent) :
    overrideVals (a ++ b) = overrideVals a ++ overrideVals b := by
  simp [overrideVals]

theorem readbackVals_append (a b : List ReplayEvent) :
    readbackVals (a ++ b) = readbackVals a ++ readbackVals b := by
  simp [readbackVals]

theorem overrideVals_stepSucc (tc : Option String) (block : Nat) (cfg : String)
    (htc : ∀ c, tc = some c → c ≠ "") :
    overrideVals (stepPre tc block ++ [.readConfig cfg, .settle 1000, .teardown]) =
      tc.toList := by
  cases tc with
  | none => rfl
  | some c =>
    have hc : c ≠ "" := htc c rfl
    simp [stepPre, overrideVals, hc]

theorem readbackVals_stepSucc (tc : Option String) (block : Nat) (cfg : String) :
    readbackVals (stepPre tc block ++ [.readConfig cfg, .settle 1000, .teardown]) = [cfg] := by
  cases tc with
  | none => rfl
  | some c =>
    by_cases hc : c = ""
    · simp [stepPre, readbackVals, hc]
    · simp [stepPre, readbackVals, hc]

theorem replayLoop_carry_forward_aux (backend : Nat → Fork)
    (hne : ∀ b, (backend b).tierConfigHex ≠ "") :
    ∀ (l : List (Nat × Nat)) (tc : Option String)
      (acc : List (Nat × List (Nat × Reward))) (tr : List ReplayEvent)
      (m : List (Nat × List (Nat × Reward))),
    (∀ c, tc = some c → c ≠ "") →
    replayLoop backend l tc acc = (tr, .ok m) →
    overrideVals tr = (tc.toList ++ readbackVals tr).dropLast ∧
      (readbackVals tr).length = l.length := by
  intro l
  induction l with
  | nil =>
    intro tc acc tr m htc heq
    simp only [replayLoop, Prod.mk.injEq] at heq
    obtain ⟨htr, _⟩ := heq
    subst htr
    constructor
    · cases tc with
      | none => rfl
      | some c => rfl
    · rfl
  | cons p rest ih =>
    intro tc acc tr m htc heq
    obtain ⟨era, block⟩ := p
    cases hev : ensureHasEvent (backend (block - 1)).events with
    | error er =>
      have hstep : replayStep backend tc era block = (stepPre tc block, .error .missingEvent) := by
        simp [replayStep, hev]
      simp only [replayLoop, hstep, Prod.mk.injEq] at heq
      obtain ⟨_, hr⟩ := heq
      simp at hr
    | ok u =>
      cases hx : extractRewards ((backend (block - 1)).dAppTiers era)
          (backend (block - 1)).integratedDApps with
      | error er =>
        have hstep : replayStep backend tc era block =
            (stepPre tc block ++ [.readConfig (backend (block - 1)).tierConfigHex],
             .error .missingDApp) := by
          simp [replayStep, hev, hx]
        simp only [replayLoop, hstep, Prod.mk.injEq] at heq
        obtain ⟨_, hr⟩ := heq
        simp at hr
      | ok rws =>
        have hstep : replayStep backend tc era block =
            (stepPre tc block ++
               [.readConfig (backend (block - 1)).tierConfigHex, .settle 1000, .teardown],
             .ok ((backend (block - 1)).tierConfigHex, rws)) := by
          simp [replayStep, hev, hx]
        rcases hrec : replayLoop backend rest
            (some (backend (block - 1)).tierConfigHex) (mapSet acc era rws) with ⟨tr2, r2⟩
        simp only [replayLoop, hstep, hrec, Prod.mk.injEq] at heq
        obtain ⟨htr, hr⟩ := heq
        subst htr
        obtain ⟨ihov, ihlen⟩ := ih (some (backend (block - 1)).tierConfigHex)
          (mapSet acc era rws) tr2 m
          (fun c hc => by
            injection hc with hc2
            exact hc2 ▸ hne (block - 1))
          (hrec.trans (by rw [hr]))
        constructor
        · rw [overrideVals_append, readbackVals_append,
            overrideVals_stepSucc tc block _ htc, readbackVals_stepSucc, ihov,
            dropLast_append_left tc.toList
              ([(backend (block - 1)).tierConfigHex] ++ readbackVals tr2) (by simp)]
          simp
        · rw [readbackVals_append, readbackVals_stepSucc, List.length_append, ihlen]
          simp [Nat.add_comm]

/-- C4: provided the backend never reports an empty tierConfig hex blob
(toHex always yields at least the 0x prefix), in a successful replay
run the sequence of storage-override values equals, byte for byte, the
sequence of tierConfig read-back values with its last element dropped:
iteration N+1 overrides with exactly the value read back after the
block production of iteration N, and the first iteration, with nothing
carried, applies no override. -/
theorem carry_forward_override_eq_readback (backend : Nat → Fork)
    (l : List (Nat × Nat)) (tr : List ReplayEvent)
    (m : List (Nat × List (Nat × Reward)))
    (hne : ∀ b, (backend b).tierConfigHex ≠ "")
    (heq : replayLoop backend l none [] = (tr, .ok m)) :
    overrideVals tr = (readbackVals tr).dropLast ∧
      (readbackVals tr).length = l.length := by
  have h := replayLoop_carry_forward_aux backend hne l none [] tr m
    (fun c hc => by cases hc) heq
  simpa using h

/-- Witness for C4 on the healthy two-era run: the single override
value equals the first read-back value, and there is one read-back per
iteration. -/
theorem carry_forward_witness :
    overrideVals c4trace = (readbackVals c4trace).dropLast ∧
      (readbackVals c4trace).length = 2 :=
  carry_forward_override_eq_readback c4backend [(1, 10), (2, 20)] c4trace
    [(1, []), (2, [])]
    (fun b => by
      show ("0xaa" : String) ≠ ""
      decide) rfl

end Reimb
